import Mathlib

/-!
Verification of the greek-verb-writer conjugation engine (src/main.rs).

Rust strings are modelled as lists of Unicode codepoints (`List Char`),
matching Rust character semantics of `starts_with`, `split` and string
concatenation on the codepoint level (all patterns and slices used by the
program fall on character boundaries).
-/

/-- A Rust string, as its sequence of Unicode codepoints. -/
abbrev Str := List Char

/-- Codepoint list of a Lean string literal (used to transcribe the Rust literals). -/
def gs (s : String) : Str := s.toList

/-- Fuel-driven worker for Rust `str::split` on a non-empty pattern: scans the
input, emitting the accumulated segment whenever the pattern matches at the
current position and skipping the matched characters.  The fuel is only a
structural-recursion device; with fuel at least the input length the
out-of-fuel branch is unreachable. -/
def rustSplitGo (pat : Str) : Nat → Str → Str → List Str
  | _, acc, [] => [acc.reverse]
  | 0, acc, s => [acc.reverse ++ s]
  | fuel+1, acc, c :: cs =>
    if pat.isPrefixOf (c :: cs) then
      acc.reverse :: rustSplitGo pat fuel [] ((c :: cs).drop pat.length)
    else
      rustSplitGo pat fuel (c :: acc) cs

/-- Rust `s.split(pat).collect::<Vec<&str>>()` for a non-empty pattern `pat`. -/
def rustSplit (pat s : Str) : List Str := rustSplitGo pat s.length [] s

/-- Whether `pat` occurs as a contiguous substring of `s` (decidable scan). -/
def occursIn (pat : Str) : Str → Bool
  | [] => pat.isPrefixOf []
  | c :: cs => pat.isPrefixOf (c :: cs) || occursIn pat cs

/-- The longest prefix of `s` not containing an occurrence of `pat`:
everything strictly before the first occurrence (all of `s` if none). -/
def takeUntilPat (pat : Str) : Str → Str
  | [] => []
  | c :: cs => if pat.isPrefixOf (c :: cs) then [] else c :: takeUntilPat pat cs

/-- Rust `v[i]` on a `Vec<&str>`.  Rust panics when `i` is out of bounds; every
use below is either guarded so the index exists, or modelled with `Option`
(`get_stem_type`) where the panic is reachable. -/
def rustIndex (l : List Str) (i : Nat) : Str := l.getD i []

/-- The `Stem` enum: a tense tag carrying the bare stem text (src/main.rs lines 79-85). -/
inductive Stem
  | Pres (val : Str)
  | Fut (val : Str)
  | Aor (val : Str)
  | Perf (val : Str)
deriving DecidableEq

/-- The `Display` impl for `Stem` (lines 87-96): the payload text, tag ignored. -/
def Stem.toStr : Stem → Str
  | .Pres val => val
  | .Fut val => val
  | .Aor val => val
  | .Perf val => val

/-- The `Conjugated` enum (lines 98-102): an optional list of word forms. -/
inductive Conjugated
  | some (v : List Str)
  | none
deriving DecidableEq

/-- The `Verb` struct (lines 119-132): a stem plus one `Conjugated` slot per TVM code. -/
structure Verb where
  stem : Stem
  pai : Conjugated
  ppi : Conjugated
  iai : Conjugated
  ipi : Conjugated
  fai : Conjugated
  fmi : Conjugated
  fpi : Conjugated
  aai : Conjugated
  ami : Conjugated
  api : Conjugated
deriving DecidableEq

/-- `Verb::get_stem_type` (lines 152-161).  Rust indexes `v[1]` inside the
recognized-tag arms, which panics when the split produced a single segment;
the panic is modelled as `none`. -/
def get_stem_type (s : Str) : Option Stem :=
  let v := rustSplit (gs ":") s
  match v[0]? with
  | Option.none => Option.none
  | Option.some t0 =>
    if t0 = gs "pres" then (v[1]?).map Stem.Pres
    else if t0 = gs "fut" then (v[1]?).map Stem.Fut
    else if t0 = gs "aor" then (v[1]?).map Stem.Aor
    else if t0 = gs "perf" then (v[1]?).map Stem.Perf
    else Option.some (Stem.Pres t0)

/-- The all-slots-empty record built by `Verb::new` (lines 135-150) once the
stem has been classified. -/
def Verb.mk0 (stm : Stem) : Verb :=
  ⟨stm, .none, .none, .none, .none, .none, .none, .none, .none, .none, .none⟩

/-- `Verb::new` (lines 135-150): classify the stem, start with every slot empty. -/
def Verb.new (s : Str) : Option Verb := (get_stem_type s).map Verb.mk0

/-- `Verb::aug_and_stem` (lines 268-321): match the leading characters of the
stem against the fixed vowel/diphthong list; on a match return the augment
and `stem.split(pat)[1]` (the split is total here because each guard
guarantees a first occurrence at position 0, so the split has at least two
segments). -/
def aug_and_stem (stem : Str) : Str × Str :=
  if (gs "ἀ").isPrefixOf stem then (gs "ἠ", rustIndex (rustSplit (gs "ἀ") stem) 1)
  else if (gs "ἂ").isPrefixOf stem then (gs "ἠ", rustIndex (rustSplit (gs "ἂ") stem) 1)
  else if (gs "ἆ").isPrefixOf stem then (gs "ἠ", rustIndex (rustSplit (gs "ἆ") stem) 1)
  else if (gs "ἁ").isPrefixOf stem then (gs "ἡ", rustIndex (rustSplit (gs "ἁ") stem) 1)
  else if (gs "ἅ").isPrefixOf stem then (gs "ἡ", rustIndex (rustSplit (gs "ἅ") stem) 1)
  else if (gs "ἇ").isPrefixOf stem then (gs "ἡ", rustIndex (rustSplit (gs "ἇ") stem) 1)
  else if (gs "αἰ").isPrefixOf stem then (gs "ᾐ", rustIndex (rustSplit (gs "αἰ") stem) 1)
  else if (gs "αἴ").isPrefixOf stem then (gs "ᾐ", rustIndex (rustSplit (gs "αἴ") stem) 1)
  else if (gs "αἶ").isPrefixOf stem then (gs "ᾐ", rustIndex (rustSplit (gs "αἶ") stem) 1)
  else if (gs "αἱ").isPrefixOf stem then (gs "ᾑ", rustIndex (rustSplit (gs "αἱ") stem) 1)
  else if (gs "αἵ").isPrefixOf stem then (gs "ᾑ", rustIndex (rustSplit (gs "αἵ") stem) 1)
  else if (gs "αἷ").isPrefixOf stem then (gs "ᾑ", rustIndex (rustSplit (gs "αἷ") stem) 1)
  else (gs "ἐ", stem)

/-- `Verb::conj_pai` (lines 163-170). -/
def Verb.conj_pai (vb : Verb) : Verb :=
  let v := [gs "ω", gs "εις", gs "ει", gs "ομεν", gs "ετε", gs "ουσι"].map fun ending => vb.stem.toStr ++ ending
  { vb with pai := Conjugated.some v }

/-- `Verb::conj_ppi` (lines 172-180). -/
def Verb.conj_ppi (vb : Verb) : Verb :=
  let v := [gs "ομαι", gs "ῃ", gs "εται", gs "ομεθα", gs "εσθε", gs "ονται"].map fun ending => vb.stem.toStr ++ ending
  { vb with ppi := Conjugated.some v }

/-- `Verb::conj_iai` (lines 182-191): augment applied. -/
def Verb.conj_iai (vb : Verb) : Verb :=
  let s := vb.stem.toStr
  let p := aug_and_stem s
  let v := [gs "ον", gs "ες", gs "ε", gs "ομεν", gs "ετε", gs "ον"].map fun ending => p.1 ++ p.2 ++ ending
  { vb with iai := Conjugated.some v }

/-- `Verb::conj_ipi` (lines 193-202): augment applied. -/
def Verb.conj_ipi (vb : Verb) : Verb :=
  let s := vb.stem.toStr
  let p := aug_and_stem s
  let v := [gs "ομην", gs "ου", gs "ετο", gs "ομεθα", gs "εσθε", gs "οντο"].map fun ending => p.1 ++ p.2 ++ ending
  { vb with ipi := Conjugated.some v }

/-- `Verb::conj_fai` (lines 204-211). -/
def Verb.conj_fai (vb : Verb) : Verb :=
  let v := [gs "ω", gs "εις", gs "ει", gs "ομεν", gs "ετε", gs "ουσι"].map fun ending => vb.stem.toStr ++ ending
  { vb with fai := Conjugated.some v }

/-- `Verb::conj_fmi` (lines 213-221). -/
def Verb.conj_fmi (vb : Verb) : Verb :=
  let v := [gs "ομαι", gs "ῃ", gs "εται", gs "ομεθα", gs "εσθε", gs "ονται"].map fun ending => vb.stem.toStr ++ ending
  { vb with fmi := Conjugated.some v }

/-- `Verb::conj_fpi` (lines 223-239). -/
def Verb.conj_fpi (vb : Verb) : Verb :=
  let v := [gs "θησομαι", gs "θησῃ", gs "θησεται", gs "θησομεθα", gs "θησεσθε", gs "θησονται"].map fun ending => vb.stem.toStr ++ ending
  { vb with fpi := Conjugated.some v }

/-- `Verb::conj_aai` (lines 241-248). -/
def Verb.conj_aai (vb : Verb) : Verb :=
  let v := [gs "α", gs "ας", gs "ε", gs "αμεν", gs "ατε", gs "αν"].map fun ending => vb.stem.toStr ++ ending
  { vb with aai := Conjugated.some v }

/-- `Verb::conj_ami` (lines 250-257). -/
def Verb.conj_ami (vb : Verb) : Verb :=
  let v := [gs "αμην", gs "ω", gs "ατο", gs "αμεθα", gs "ασθε", gs "αντο"].map fun ending => vb.stem.toStr ++ ending
  { vb with ami := Conjugated.some v }

/-- `Verb::conj_api` (lines 259-266). -/
def Verb.conj_api (vb : Verb) : Verb :=
  let v := [gs "θην", gs "θης", gs "θη", gs "θημεν", gs "θητε", gs "θησαν"].map fun ending => vb.stem.toStr ++ ending
  { vb with api := Conjugated.some v }

/-- One iteration of the `conj_reqs` loop (lines 324-340): dispatch on the
requested code string, silently skipping anything not among the ten. -/
def conj_req (vb : Verb) (req : Str) : Verb :=
  if req = gs "pai" then vb.conj_pai
  else if req = gs "ppi" then vb.conj_ppi
  else if req = gs "iai" then vb.conj_iai
  else if req = gs "ipi" then vb.conj_ipi
  else if req = gs "fai" then vb.conj_fai
  else if req = gs "fmi" then vb.conj_fmi
  else if req = gs "fpi" then vb.conj_fpi
  else if req = gs "aai" then vb.conj_aai
  else if req = gs "ami" then vb.conj_ami
  else if req = gs "api" then vb.conj_api
  else vb

/-- `conj_reqs` (lines 324-340): fill the requested slots in order. -/
def conj_reqs (vb : Verb) (reqs : List Str) : Verb := reqs.foldl conj_req vb

/-- The default code lists selected by `main` when `--all` is given
(lines 63-68), keyed on the stem's tense tag. -/
def default_reqs : Stem → List Str
  | .Pres _ => [gs "pai", gs "ppi", gs "iai", gs "ipi"]
  | .Fut _ => [gs "fai", gs "fmi", gs "fpi"]
  | .Aor _ => [gs "aai", gs "ami", gs "api"]
  | .Perf _ => [gs "pfai", gs "pfpi", gs "plai", gs "plpi"]

/-- `Conjugated::print` (lines 104-117) as the list of stdout lines it emits:
one ", "-joined line for a filled slot, nothing for an empty one. -/
def Conjugated.printLines : Conjugated → List Str
  | Conjugated.some v => [(v.foldl (fun s part => s ++ gs ", " ++ part) []).drop 2]
  | Conjugated.none => []

/-- The stdout lines one iteration of `print_reqs` (lines 342-360) emits for a
requested code: the matching slot's line, or nothing for an unknown code
(the unknown-code arm writes a notice to stderr only). -/
def print_req_lines (vb : Verb) (req : Str) : List Str :=
  if req = gs "pai" then vb.pai.printLines
  else if req = gs "ppi" then vb.ppi.printLines
  else if req = gs "iai" then vb.iai.printLines
  else if req = gs "ipi" then vb.ipi.printLines
  else if req = gs "fai" then vb.fai.printLines
  else if req = gs "fmi" then vb.fmi.printLines
  else if req = gs "fpi" then vb.fpi.printLines
  else if req = gs "aai" then vb.aai.printLines
  else if req = gs "ami" then vb.ami.printLines
  else if req = gs "api" then vb.api.printLines
  else []

/-- All stdout lines of `print_reqs` (lines 342-360), in request order. -/
def print_reqs_lines (vb : Verb) (reqs : List Str) : List Str :=
  (reqs.map (print_req_lines vb)).flatten

/-- The CSV record one iteration of the `to_csv` loop (lines 362-384) emits
for a requested code: the selected slot's forms, or nothing when that slot is
empty.  Note the wildcard arm of the Rust `match` selects `&vb.pai`. -/
def csv_row_for (vb : Verb) (req : Str) : Option (List Str) :=
  let conjugated :=
    if req = gs "pai" then vb.pai
    else if req = gs "ppi" then vb.ppi
    else if req = gs "iai" then vb.iai
    else if req = gs "ipi" then vb.ipi
    else if req = gs "fai" then vb.fai
    else if req = gs "fmi" then vb.fmi
    else if req = gs "fpi" then vb.fpi
    else if req = gs "aai" then vb.aai
    else if req = gs "ami" then vb.ami
    else if req = gs "api" then vb.api
    else vb.pai
  match conjugated with
  | Conjugated.some conj => Option.some conj
  | Conjugated.none => Option.none

/-- All records `to_csv` (lines 362-384) writes, in request order. -/
def csv_rows (vb : Verb) (reqs : List Str) : List (List Str) :=
  reqs.filterMap (csv_row_for vb)

/-- The ten TVM codes that have a `Conjugated` slot in `Verb`. -/
inductive Code
  | pai | ppi | iai | ipi | fai | fmi | fpi | aai | ami | api
deriving DecidableEq

/-- The request string of a TVM code, as matched by `conj_reqs`, `print_reqs`
and `to_csv`. -/
def Code.str : Code → Str
  | .pai => gs "pai"
  | .ppi => gs "ppi"
  | .iai => gs "iai"
  | .ipi => gs "ipi"
  | .fai => gs "fai"
  | .fmi => gs "fmi"
  | .fpi => gs "fpi"
  | .aai => gs "aai"
  | .ami => gs "ami"
  | .api => gs "api"

/-- The list of the ten implemented request strings. -/
def codes10 : List Str :=
  [gs "pai", gs "ppi", gs "iai", gs "ipi", gs "fai", gs "fmi", gs "fpi",
   gs "aai", gs "ami", gs "api"]

/-- The `Verb` slot belonging to a TVM code. -/
def Verb.slot (vb : Verb) : Code → Conjugated
  | .pai => vb.pai
  | .ppi => vb.ppi
  | .iai => vb.iai
  | .ipi => vb.ipi
  | .fai => vb.fai
  | .fmi => vb.fmi
  | .fpi => vb.fpi
  | .aai => vb.aai
  | .ami => vb.ami
  | .api => vb.api

/-- Whether the code is one of the two augment-applying (imperfect) codes. -/
def Code.isAug : Code → Bool
  | .iai => true
  | .ipi => true
  | _ => false

/-- The ending table of the spec (section 4.2), one 6-ending row per code,
transcribed from the literal arrays of `conj_pai` .. `conj_api`. -/
def endings : Code → List Str
  | .pai => [gs "ω", gs "εις", gs "ει", gs "ομεν", gs "ετε", gs "ουσι"]
  | .ppi => [gs "ομαι", gs "ῃ", gs "εται", gs "ομεθα", gs "εσθε", gs "ονται"]
  | .iai => [gs "ον", gs "ες", gs "ε", gs "ομεν", gs "ετε", gs "ον"]
  | .ipi => [gs "ομην", gs "ου", gs "ετο", gs "ομεθα", gs "εσθε", gs "οντο"]
  | .fai => [gs "ω", gs "εις", gs "ει", gs "ομεν", gs "ετε", gs "ουσι"]
  | .fmi => [gs "ομαι", gs "ῃ", gs "εται", gs "ομεθα", gs "εσθε", gs "ονται"]
  | .fpi => [gs "θησομαι", gs "θησῃ", gs "θησεται", gs "θησομεθα", gs "θησεσθε", gs "θησονται"]
  | .aai => [gs "α", gs "ας", gs "ε", gs "αμεν", gs "ατε", gs "αν"]
  | .ami => [gs "αμην", gs "ω", gs "ατο", gs "αμεθα", gs "ασθε", gs "αντο"]
  | .api => [gs "θην", gs "θης", gs "θη", gs "θημεν", gs "θητε", gs "θησαν"]

/-- The fixed augment table of the spec (section 4.3): matched leading
substring paired with its augment, in the order the source checks them. -/
def aug_table : List (Str × Str) :=
  [(gs "ἀ", gs "ἠ"), (gs "ἂ", gs "ἠ"), (gs "ἆ", gs "ἠ"),
   (gs "ἁ", gs "ἡ"), (gs "ἅ", gs "ἡ"), (gs "ἇ", gs "ἡ"),
   (gs "αἰ", gs "ᾐ"), (gs "αἴ", gs "ᾐ"), (gs "αἶ", gs "ᾐ"),
   (gs "αἱ", gs "ᾑ"), (gs "αἵ", gs "ᾑ"), (gs "αἷ", gs "ᾑ")]

/-- View of a `Conjugated` slot as an `Option`, used to state what the
`to_csv` loop emits for one request. -/
def Conjugated.toOption : Conjugated → Option (List Str)
  | Conjugated.some v => Option.some v
  | Conjugated.none => Option.none

/-! ### Infrastructure lemmas about the split model -/

/-- The split worker never returns an empty list. -/
theorem rustSplitGo_ne_nil (pat : Str) (fuel : Nat) (acc s : Str) :
    rustSplitGo pat fuel acc s ≠ [] := by
  induction fuel generalizing acc s with
  | zero => cases s <;> simp [rustSplitGo]
  | succ fuel ih =>
    cases s with
    | nil => simp [rustSplitGo]
    | cons c cs =>
      rw [rustSplitGo]
      split
      · simp
      · exact ih _ _

/-- A pattern-free suffix is consumed into a single segment. -/
theorem rustSplitGo_of_not_occursIn (pat : Str) (s : Str) (fuel : Nat) (acc : Str)
    (h : occursIn pat s = false) :
    rustSplitGo pat fuel acc s = [acc.reverse ++ s] := by
  induction fuel generalizing acc s with
  | zero => cases s <;> simp [rustSplitGo]
  | succ fuel ih =>
    cases s with
    | nil => simp [rustSplitGo]
    | cons c cs =>
      rw [occursIn, Bool.or_eq_false_iff] at h
      rw [rustSplitGo, if_neg (by simp [h.1])]
      rw [ih _ _ h.2]
      simp

/-- The head of the split is the text before the first occurrence of the pattern. -/
theorem rustSplitGo_head (pat : Str) (s : Str) (fuel : Nat) (acc : Str)
    (h : s.length ≤ fuel) :
    (rustSplitGo pat fuel acc s).head? = Option.some (acc.reverse ++ takeUntilPat pat s) := by
  induction fuel generalizing acc s with
  | zero =>
    have : s = [] := List.length_eq_zero.mp (Nat.le_zero.mp h)
    subst this
    simp [rustSplitGo, takeUntilPat]
  | succ fuel ih =>
    cases s with
    | nil => simp [rustSplitGo, takeUntilPat]
    | cons c cs =>
      rw [rustSplitGo, takeUntilPat]
      split
      · simp
      · rw [ih _ _ (by simpa using Nat.le_of_succ_le_succ h)]
        simp

/-- When the pattern occurs in the input, the split has at least two segments. -/
theorem rustSplitGo_length_of_occursIn (pat : Str) (s : Str) (fuel : Nat) (acc : Str)
    (hpat : pat ≠ []) (hfuel : s.length ≤ fuel) (h : occursIn pat s = true) :
    2 ≤ (rustSplitGo pat fuel acc s).length := by
  induction fuel generalizing acc s with
  | zero =>
    have : s = [] := List.length_eq_zero.mp (Nat.le_zero.mp hfuel)
    subst this
    rw [occursIn] at h
    cases pat with
    | nil => exact absurd rfl hpat
    | cons p ps => simp [List.isPrefixOf] at h
  | succ fuel ih =>
    cases s with
    | nil =>
      rw [occursIn] at h
      cases pat with
      | nil => exact absurd rfl hpat
      | cons p ps => simp [List.isPrefixOf] at h
    | cons c cs =>
      rw [rustSplitGo]
      split
      · have := rustSplitGo_ne_nil pat fuel [] ((c :: cs).drop pat.length)
        simp only [List.length_cons]
        have hlen : 1 ≤ (rustSplitGo pat fuel [] ((c :: cs).drop pat.length)).length :=
          List.length_pos.mpr this
        omega
      · rename_i hnp
        rw [occursIn] at h
        simp only [hnp, Bool.false_or] at h
        exact ih _ _ (by simpa using Nat.le_of_succ_le_succ hfuel) h

/-- `isPrefixOf` holds for an appended prefix. -/
theorem isPrefixOf_append_self (l t : List Char) : l.isPrefixOf (l ++ t) = true := by
  induction l with
  | nil => simp [List.isPrefixOf]
  | cons a as ih => simp [List.isPrefixOf, ih]

/-- Splitting `pat ++ rest` on `pat`, when `pat` does not reoccur in `rest`,
yields exactly the two segments [] and `rest`. -/
theorem rustSplit_append_of_not_occursIn (pat rest : Str) (hpat : pat ≠ [])
    (h : occursIn pat rest = false) :
    rustSplit pat (pat ++ rest) = [[], rest] := by
  cases pat with
  | nil => exact absurd rfl hpat
  | cons p ps =>
    have hpre : (p :: ps).isPrefixOf (p :: (ps ++ rest)) = true := by
      have h0 := isPrefixOf_append_self (p :: ps) rest
      simp only [List.cons_append] at h0
      exact h0
    have hdrop : List.drop (p :: ps).length (p :: (ps ++ rest)) = rest := by
      have h0 := List.drop_left (p :: ps) rest
      simp only [List.cons_append] at h0
      exact h0
    show rustSplitGo (p :: ps) ((p :: ps) ++ rest).length [] ((p :: ps) ++ rest) = [[], rest]
    simp only [List.cons_append, List.length_cons]
    rw [rustSplitGo, if_pos hpre, hdrop]
    rw [rustSplitGo_of_not_occursIn (p :: ps) rest _ [] h]
    simp

/-- The augment-relevant Greek literals, spelled out as codepoint lists. -/
theorem gs_aug_chars :
    gs "ἀ" = ['ἀ'] ∧ gs "ἂ" = ['ἂ'] ∧ gs "ἆ" = ['ἆ'] ∧
    gs "ἁ" = ['ἁ'] ∧ gs "ἅ" = ['ἅ'] ∧ gs "ἇ" = ['ἇ'] ∧
    gs "αἰ" = ['α', 'ἰ'] ∧ gs "αἴ" = ['α', 'ἴ'] ∧ gs "αἶ" = ['α', 'ἶ'] ∧
    gs "αἱ" = ['α', 'ἱ'] ∧ gs "αἵ" = ['α', 'ἵ'] ∧ gs "αἷ" = ['α', 'ἷ'] ∧
    gs "ἠ" = ['ἠ'] ∧ gs "ἡ" = ['ἡ'] ∧ gs "ᾐ" = ['ᾐ'] ∧ gs "ᾑ" = ['ᾑ'] ∧
    gs "ἐ" = ['ἐ'] := by decide

/-- On a matched guard, `split(pat)[1]` is the text between the initial match
and the next occurrence; with no further occurrence it is the whole rest. -/
theorem rustIndex_split_append (pat rest : Str) (hpat : pat ≠ [])
    (h : occursIn pat rest = false) :
    rustIndex (rustSplit pat (pat ++ rest)) 1 = rest := by
  rw [rustSplit_append_of_not_occursIn pat rest hpat h]
  rfl

/-- Claim C1 (amended): for every stem that begins with one of the listed
vowel/diphthong prefixes and in which that prefix does not occur again after
its initial position, `aug_and_stem` returns the augment given by the prefix
table together with the stem minus the matched leading characters. -/
theorem claim_C1 (pa : Str × Str) (hmem : pa ∈ aug_table) (rest : Str)
    (hno : occursIn pa.1 rest = false) :
    aug_and_stem (pa.1 ++ rest) = (pa.2, rest) := by
  simp only [aug_table, List.mem_cons, List.not_mem_nil, or_false] at hmem
  rcases hmem with h|h|h|h|h|h|h|h|h|h|h|h <;>
    subst h <;>
    simp only [gs_aug_chars.1, gs_aug_chars.2.1, gs_aug_chars.2.2.1,
      gs_aug_chars.2.2.2.1, gs_aug_chars.2.2.2.2.1, gs_aug_chars.2.2.2.2.2.1,
      gs_aug_chars.2.2.2.2.2.2.1, gs_aug_chars.2.2.2.2.2.2.2.1,
      gs_aug_chars.2.2.2.2.2.2.2.2.1, gs_aug_chars.2.2.2.2.2.2.2.2.2.1,
      gs_aug_chars.2.2.2.2.2.2.2.2.2.2.1, gs_aug_chars.2.2.2.2.2.2.2.2.2.2.2.1]
      at hno ⊢ <;>
    (have hs := rustIndex_split_append _ rest (by decide) hno) <;>
    simp_all [aug_and_stem, List.isPrefixOf, gs_aug_chars.1, gs_aug_chars.2.1,
      gs_aug_chars.2.2.1, gs_aug_chars.2.2.2.1, gs_aug_chars.2.2.2.2.1,
      gs_aug_chars.2.2.2.2.2.1, gs_aug_chars.2.2.2.2.2.2.1,
      gs_aug_chars.2.2.2.2.2.2.2.1, gs_aug_chars.2.2.2.2.2.2.2.2.1,
      gs_aug_chars.2.2.2.2.2.2.2.2.2.1, gs_aug_chars.2.2.2.2.2.2.2.2.2.2.1,
      gs_aug_chars.2.2.2.2.2.2.2.2.2.2.2.1, gs_aug_chars.2.2.2.2.2.2.2.2.2.2.2.2.1,
      gs_aug_chars.2.2.2.2.2.2.2.2.2.2.2.2.2.1,
      gs_aug_chars.2.2.2.2.2.2.2.2.2.2.2.2.2.2.1,
      gs_aug_chars.2.2.2.2.2.2.2.2.2.2.2.2.2.2.2.1,
      gs_aug_chars.2.2.2.2.2.2.2.2.2.2.2.2.2.2.2.2]

/-- Claim C1 counterexample: for the stem ἀἀ (which begins with the listed
prefix ἀ), the remaining stem is not the original stem with one leading
character removed — the split also discards everything from the second
occurrence of the prefix on, leaving the empty remainder. -/
theorem claim_C1_counterexample :
    aug_and_stem (gs "ἀἀ") ≠ (gs "ἠ", (gs "ἀἀ").drop 1) := by decide

/-- Witness for C1: the spec example stem ἀκου resolves to augment ἠ with
remaining stem κου. -/
theorem claim_C1_witness :
    ((gs "ἀ", gs "ἠ") ∈ aug_table ∧ occursIn (gs "ἀ") (gs "κου") = false) ∧
    aug_and_stem (gs "ἀ" ++ gs "κου") = (gs "ἠ", gs "κου") :=
  ⟨⟨by decide, by decide⟩, claim_C1 (gs "ἀ", gs "ἠ") (by decide) (gs "κου") (by decide)⟩

/-- The first segment of a split is the text before the first occurrence of
the pattern. -/
theorem rustSplit_getElem0 (pat s : Str) :
    (rustSplit pat s)[0]? = Option.some (takeUntilPat pat s) := by
  have h := rustSplitGo_head pat s s.length [] (Nat.le_refl _)
  rw [rustSplit, ← List.head?_eq_getElem?]
  simpa using h

/-- Claim C3 (amended): for every input whose segment before the first `:` is
not one of the recognized tags, `get_stem_type` returns the Present variant
carrying that first segment — which equals the entire original input exactly
when the input contains no `:`. -/
theorem claim_C3 (s : Str)
    (h : takeUntilPat (gs ":") s ∉ [gs "pres", gs "fut", gs "aor", gs "perf"]) :
    get_stem_type s = Option.some (Stem.Pres (takeUntilPat (gs ":") s)) := by
  simp only [List.mem_cons, List.not_mem_nil, or_false, not_or] at h
  obtain ⟨h1, h2, h3, h4⟩ := h
  unfold get_stem_type
  simp only [rustSplit_getElem0]
  simp [h1, h2, h3, h4]

/-- Claim C3 counterexample: classifying xyz:foo yields Present with body
xyz (the first segment), not the entire original string xyz:foo. -/
theorem claim_C3_counterexample :
    get_stem_type (gs "xyz:foo") ≠ Option.some (Stem.Pres (gs "xyz:foo")) := by decide

/-- Witness for C3 at the spec's example input xyz:foo. -/
theorem claim_C3_witness :
    (takeUntilPat (gs ":") (gs "xyz:foo") ∉ [gs "pres", gs "fut", gs "aor", gs "perf"]) ∧
    get_stem_type (gs "xyz:foo") = Option.some (Stem.Pres (takeUntilPat (gs ":") (gs "xyz:foo"))) :=
  ⟨by decide, claim_C3 (gs "xyz:foo") (by decide)⟩

/-- Claim C8: `get_stem_type` is not total — every input that is exactly a
recognized tag with no `:` separator makes the body lookup `v[1]` index past
the end of the one-element split (modelled as `none`, the Rust panic), while
any input that does contain a separator classifies successfully. -/
theorem claim_C8 :
    (∀ t ∈ [gs "pres", gs "fut", gs "aor", gs "perf"], get_stem_type t = Option.none) ∧
    (∀ s : Str, occursIn (gs ":") s = true → (get_stem_type s).isSome = true) := by
  constructor
  · decide
  · intro s hs
    have hlen : 2 ≤ (rustSplit (gs ":") s).length :=
      rustSplitGo_length_of_occursIn (gs ":") s s.length [] (by decide) (Nat.le_refl _) hs
    obtain ⟨a, b, t, hv⟩ : ∃ a b t, rustSplit (gs ":") s = a :: b :: t := by
      match hv : rustSplit (gs ":") s with
      | [] => rw [hv] at hlen; simp at hlen
      | [a] => rw [hv] at hlen; simp at hlen
      | a :: b :: t => exact ⟨a, b, t, rfl⟩
    unfold get_stem_type
    rw [hv]
    simp only [List.getElem?_cons_zero, List.getElem?_cons_succ]
    split_ifs <;> simp

/-- Witness for C8: the tag-only input pres is rejected (the modelled panic),
while pres:παυ, which contains the separator, classifies successfully. -/
theorem claim_C8_witness :
    ((gs "pres") ∈ [gs "pres", gs "fut", gs "aor", gs "perf"] ∧
      get_stem_type (gs "pres") = Option.none) ∧
    (occursIn (gs ":") (gs "pres:παυ") = true ∧
      (get_stem_type (gs "pres:παυ")).isSome = true) :=
  ⟨⟨by decide, claim_C8.1 (gs "pres") (by decide)⟩,
   ⟨by decide, claim_C8.2 (gs "pres:παυ") (by decide)⟩⟩

/-! ### Behaviour of the batch loops on request strings outside the ten codes -/

/-- An unknown request string is silently skipped by the `conj_reqs` loop. -/
theorem conj_req_unknown (vb : Verb) (c : Str) (hc : c ∉ codes10) :
    conj_req vb c = vb := by
  simp only [codes10, List.mem_cons, List.not_mem_nil, or_false, not_or] at hc
  obtain ⟨h1, h2, h3, h4, h5, h6, h7, h8, h9, h10⟩ := hc
  simp [conj_req, h1, h2, h3, h4, h5, h6, h7, h8, h9, h10]

/-- An unknown request string produces no stdout line in `print_reqs`
(the wildcard arm only writes a notice to stderr). -/
theorem print_req_lines_unknown (vb : Verb) (c : Str) (hc : c ∉ codes10) :
    print_req_lines vb c = [] := by
  simp only [codes10, List.mem_cons, List.not_mem_nil, or_false, not_or] at hc
  obtain ⟨h1, h2, h3, h4, h5, h6, h7, h8, h9, h10⟩ := hc
  simp [print_req_lines, h1, h2, h3, h4, h5, h6, h7, h8, h9, h10]

/-- For an unknown request string the `to_csv` loop falls into the wildcard
arm, which selects the `pai` slot: it emits that slot's forms as a row when
filled, and nothing otherwise. -/
theorem csv_row_for_unknown (vb : Verb) (c : Str) (hc : c ∉ codes10) :
    csv_row_for vb c = Conjugated.toOption vb.pai := by
  simp only [codes10, List.mem_cons, List.not_mem_nil, or_false, not_or] at hc
  obtain ⟨h1, h2, h3, h4, h5, h6, h7, h8, h9, h10⟩ := hc
  cases hp : vb.pai <;>
    simp [csv_row_for, Conjugated.toOption, hp, h1, h2, h3, h4, h5, h6, h7, h8, h9, h10]

/-- Claim C2 (amended): a requested code outside the fixed ten is skipped by
the conjugation loop, emits no console line, and raises no fatal error; but
in CSV mode the wildcard arm of `to_csv` selects the `pai` slot, so the
unknown code emits a copy of the `pai` row whenever the `pai` slot has been
computed, and only emits no row when that slot is absent. -/
theorem claim_C2 (vb : Verb) (c : Str) (hc : c ∉ codes10) :
    conj_req vb c = vb ∧ print_req_lines vb c = [] ∧
    csv_row_for vb c = Conjugated.toOption vb.pai :=
  ⟨conj_req_unknown vb c hc, print_req_lines_unknown vb c hc, csv_row_for_unknown vb c hc⟩

/-- Claim C2 counterexample: with codes pai and pfai requested for the same
verb, `to_csv` does emit a row for the unimplemented code pfai (a duplicate
of the pai row), contradicting the claim that no CSV row is emitted. -/
theorem claim_C2_counterexample :
    csv_row_for (conj_reqs (Verb.mk0 (Stem.Pres (gs "παυ"))) [gs "pai", gs "pfai"])
      (gs "pfai") ≠ Option.none := by decide

/-- Witness for C2 at the unimplemented perfect-family code pfai. -/
theorem claim_C2_witness :
    ((gs "pfai") ∉ codes10) ∧
    (conj_req (Verb.mk0 (Stem.Perf (gs "παυ"))) (gs "pfai") = Verb.mk0 (Stem.Perf (gs "παυ")) ∧
      print_req_lines (Verb.mk0 (Stem.Perf (gs "παυ"))) (gs "pfai") = [] ∧
      csv_row_for (Verb.mk0 (Stem.Perf (gs "παυ"))) (gs "pfai")
        = Conjugated.toOption (Verb.mk0 (Stem.Perf (gs "παυ"))).pai) :=
  ⟨by decide, claim_C2 (Verb.mk0 (Stem.Perf (gs "παυ"))) (gs "pfai") (by decide)⟩

/-- Claim C4: for every stem and every TVM code in the implemented set, the
conjugation operation stores a result containing exactly 6 word forms. -/
theorem claim_C4 (vb : Verb) (c : Code) :
    ∃ forms : List Str,
      Verb.slot (conj_req vb (Code.str c)) c = Conjugated.some forms ∧
      forms.length = 6 := by
  cases c <;> exact ⟨_, rfl, by simp⟩

/-- Claim C5: for every non-augmented code, the stored forms are exactly the
stem's literal text concatenated with the code's endings in table order, so
in particular every form starts with the literal stem text. -/
theorem claim_C5 (vb : Verb) (c : Code) (h : Code.isAug c = false) :
    Verb.slot (conj_req vb (Code.str c)) c
        = Conjugated.some ((endings c).map fun e => vb.stem.toStr ++ e) ∧
      ∀ f ∈ (endings c).map fun e => vb.stem.toStr ++ e, vb.stem.toStr <+: f := by
  cases c <;> first
  | exact absurd h (by decide)
  | · refine ⟨rfl, ?_⟩
      intro f hf
      simp only [List.mem_map] at hf
      obtain ⟨e, _, rfl⟩ := hf
      exact List.prefix_append _ _

/-- Witness for C5: the present active row of παυ. -/
theorem claim_C5_witness :
    Code.isAug Code.pai = false ∧
    (Verb.slot (conj_req (Verb.mk0 (Stem.Pres (gs "παυ"))) (Code.str Code.pai)) Code.pai
        = Conjugated.some ((endings Code.pai).map
            fun e => (Verb.mk0 (Stem.Pres (gs "παυ"))).stem.toStr ++ e) ∧
      ∀ f ∈ (endings Code.pai).map
          fun e => (Verb.mk0 (Stem.Pres (gs "παυ"))).stem.toStr ++ e,
        (Verb.mk0 (Stem.Pres (gs "παυ"))).stem.toStr <+: f) :=
  ⟨by decide, claim_C5 (Verb.mk0 (Stem.Pres (gs "παυ"))) Code.pai (by decide)⟩

/-- Claim C7: conjugating the same code twice in succession leaves the slot
equal to the result of conjugating it once — the computation is a pure
function of the stem text and the code. -/
theorem claim_C7 (vb : Verb) (c : Code) :
    Verb.slot (conj_req (conj_req vb (Code.str c)) (Code.str c)) c
      = Verb.slot (conj_req vb (Code.str c)) c := by
  cases c <;> rfl

/-- Claim C9: conjugating code `c` mutates only the slot of `c`: the stem and
every other slot of the verb are left unchanged. -/
theorem claim_C9 (vb : Verb) (c c' : Code) (h : c' ≠ c) :
    (conj_req vb (Code.str c)).stem = vb.stem ∧
    Verb.slot (conj_req vb (Code.str c)) c' = Verb.slot vb c' := by
  cases c <;> cases c' <;> first
  | exact absurd rfl h
  | exact ⟨rfl, rfl⟩

/-- Witness for C9: conjugating pai leaves the ppi slot and the stem alone. -/
theorem claim_C9_witness :
    Code.ppi ≠ Code.pai ∧
    ((conj_req (Verb.mk0 (Stem.Pres (gs "παυ"))) (Code.str Code.pai)).stem
        = (Verb.mk0 (Stem.Pres (gs "παυ"))).stem ∧
      Verb.slot (conj_req (Verb.mk0 (Stem.Pres (gs "παυ"))) (Code.str Code.pai)) Code.ppi
        = Verb.slot (Verb.mk0 (Stem.Pres (gs "παυ"))) Code.ppi) :=
  ⟨by decide, claim_C9 (Verb.mk0 (Stem.Pres (gs "παυ"))) Code.pai Code.ppi (by decide)⟩

/-- Claim C10: the computed forms depend only on the stem's text, never on
its tense tag — two fresh verbs whose stems carry the same body produce
identical forms for every code. -/
theorem claim_C10 (s1 s2 : Stem) (h : s1.toStr = s2.toStr) (c : Code) :
    Verb.slot (conj_req (Verb.mk0 s1) (Code.str c)) c
      = Verb.slot (conj_req (Verb.mk0 s2) (Code.str c)) c := by
  cases c <;>
    simp +decide [conj_req, Code.str, Verb.slot, Verb.mk0, Verb.conj_pai, Verb.conj_ppi,
      Verb.conj_iai, Verb.conj_ipi, Verb.conj_fai, Verb.conj_fmi, Verb.conj_fpi,
      Verb.conj_aai, Verb.conj_ami, Verb.conj_api, h]

/-- Witness for C10: Present(παυ) and Future(παυ) yield the same pai row. -/
theorem claim_C10_witness :
    (Stem.Pres (gs "παυ")).toStr = (Stem.Fut (gs "παυ")).toStr ∧
    Verb.slot (conj_req (Verb.mk0 (Stem.Pres (gs "παυ"))) (Code.str Code.pai)) Code.pai
      = Verb.slot (conj_req (Verb.mk0 (Stem.Fut (gs "παυ"))) (Code.str Code.pai)) Code.pai :=
  ⟨rfl, claim_C10 (Stem.Pres (gs "παυ")) (Stem.Fut (gs "παυ")) rfl Code.pai⟩

/-- A request list containing no implemented code leaves the verb untouched. -/
theorem conj_reqs_all_unknown (vb : Verb) (reqs : List Str)
    (h : ∀ c ∈ reqs, c ∉ codes10) : conj_reqs vb reqs = vb := by
  induction reqs generalizing vb with
  | nil => rfl
  | cons r rs ih =>
    show List.foldl conj_req vb (r :: rs) = vb
    rw [List.foldl_cons, conj_req_unknown vb r (h r (by simp))]
    exact ih vb fun c hc => h c (by simp [hc])

/-- A request list containing no implemented code prints nothing to stdout. -/
theorem print_reqs_lines_all_unknown (vb : Verb) (reqs : List Str)
    (h : ∀ c ∈ reqs, c ∉ codes10) : print_reqs_lines vb reqs = [] := by
  induction reqs with
  | nil => rfl
  | cons r rs ih =>
    show ((r :: rs).map (print_req_lines vb)).flatten = []
    rw [List.map_cons, List.flatten_cons,
      print_req_lines_unknown vb r (h r (by simp)), List.nil_append]
    exact ih fun c hc => h c (by simp [hc])

/-- A request list containing no implemented code writes no CSV rows, as long
as the `pai` slot (selected by the wildcard arm) is empty. -/
theorem csv_rows_all_unknown (vb : Verb) (reqs : List Str)
    (hpai : vb.pai = Conjugated.none) (h : ∀ c ∈ reqs, c ∉ codes10) :
    csv_rows vb reqs = [] := by
  induction reqs with
  | nil => rfl
  | cons r rs ih =>
    show (r :: rs).filterMap (csv_row_for vb) = []
    have hr : csv_row_for vb r = Option.none := by
      rw [csv_row_for_unknown vb r (h r (by simp)), hpai]
      rfl
    simp only [List.filterMap_cons, hr]
    exact ih fun c hc => h c (by simp [hc])

/-- Claim C6: for every Perfect-stem verb in default (all) mode, the selected
code list is pfai, pfpi, plai, plpi, and after the batch loop every one of
the ten slots is still absent, so no stdout line and no CSV row is produced. -/
theorem claim_C6 (b : Str) :
    default_reqs (Stem.Perf b) = [gs "pfai", gs "pfpi", gs "plai", gs "plpi"] ∧
    (∀ c : Code,
      Verb.slot (conj_reqs (Verb.mk0 (Stem.Perf b)) (default_reqs (Stem.Perf b))) c
        = Conjugated.none) ∧
    print_reqs_lines (conj_reqs (Verb.mk0 (Stem.Perf b)) (default_reqs (Stem.Perf b)))
      (default_reqs (Stem.Perf b)) = [] ∧
    csv_rows (conj_reqs (Verb.mk0 (Stem.Perf b)) (default_reqs (Stem.Perf b)))
      (default_reqs (Stem.Perf b)) = [] := by
  have hunk : ∀ c ∈ default_reqs (Stem.Perf b), c ∉ codes10 := by
    intro c hc
    simp only [default_reqs, List.mem_cons, List.not_mem_nil, or_false] at hc
    rcases hc with h|h|h|h <;> subst h <;> decide
  have hv : conj_reqs (Verb.mk0 (Stem.Perf b)) (default_reqs (Stem.Perf b))
      = Verb.mk0 (Stem.Perf b) := conj_reqs_all_unknown _ _ hunk
  refine ⟨rfl, ?_, ?_, ?_⟩
  · intro c
    rw [hv]
    cases c <;> rfl
  · rw [hv]
    exact print_reqs_lines_all_unknown _ _ hunk
  · rw [hv]
    exact csv_rows_all_unknown _ _ rfl hunk
